import Mathlib

/-!
# Verification of the go-path resolver

A shallow embedding of the path-to-graph resolution engine of `go-path`
(package `resolver`, the remainder-tolerant version of the resolver, which
the repository's tests exercise and which the design notes designate as the
authoritative contract), together with a model of the path utilities and of
the fetch-session traversal collaborator described by the specification.

Content-addressed blocks are modelled as a finite association list from
content identifiers to decoded nodes.  The selector compiler
(`pathLeafSelector` / `pathAllSelector` / `pathSelector`) and the facade
operations (`resolveToLastNode`, `resolvePath`, `resolvePathComponents`,
`resolveLinks`, `resolveNodes`) are translated from the source; the
traversal (`walk`) and the path model (`Path`, `splitAbsPath`) are modelled
from the specification of the external collaborators they stand for.
-/

namespace GoPath

/-- A content identifier.  `undef` embeds Go's zero value `cid.Cid{}`
(also spelled `cid.Undef`); real identifiers are abstracted to a
natural number, equality being byte-exact in the source. -/
inductive Cid where
  | undef : Cid
  | mk (n : Nat) : Cid
deriving DecidableEq, Repr

/-- An IPLD link as the resolver sees it: either a concrete
content-identifier link (`cidlink.Link`) or some other implementation of
the link interface, which the type assertion `lnk.(cidlink.Link)` in the
source rejects. -/
inductive Link where
  | cidLink (c : Cid) : Link
  | otherLink (tag : Nat) : Link
deriving DecidableEq, Repr

/-- A decoded IPLD node, restricted to the kinds the resolution engine
distinguishes: maps with named fields (field order significant, as in the
codecs), string scalars (standing for every non-map non-link kind), and
links. -/
inductive Value where
  | vmap (fields : List (String × Value)) : Value
  | vstring (s : String) : Value
  | vlink (l : Link) : Value

/-- The kind discriminator, `ipldp.Node.Kind()` restricted to the kinds
modelled by `Value`. -/
inductive Kind where
  | map : Kind
  | string : Kind
  | link : Kind
deriving DecidableEq, Repr

/-- `Kind()` of a node. -/
def Value.kind : Value → Kind
  | .vmap _ => .map
  | .vstring _ => .string
  | .vlink _ => .link

/-- Errors surfaced by the resolver and by its collaborators.
`noLink` embeds the `ErrNoLink{Name, Node}` type declared in
`resolver.go`; `noSuchField` is the raw lookup error a node returns from
`LookupByString` when the field is absent (it carries only the field
name, not the parent's identifier); `missingBlock` is a fetch-collaborator
failure; `noNode` is the facade's "path did not resolve to a node" error;
`notCidLink` is the "resolves to a link that is not a cid link" error;
`badLink` is a traversal failure on a link that cannot be loaded;
`notAMapNode` is the lookup error on a node without named fields. -/
inductive Err where
  | missingBlock (c : Cid) : Err
  | badLink : Err
  | noSuchField (name : String) : Err
  | notAMapNode : Err
  | noNode : Err
  | notCidLink : Err
  | noLink (name : String) (node : Cid) : Err
deriving DecidableEq, Repr

/-- The block store backing the fetch collaborator: a finite map from
content identifiers to the root node decoded from the identified block. -/
abbrev Store := List (Cid × Value)

/-- Association-list lookup of a block by its identifier. -/
def findBlock (c : Cid) : Store → Option Value
  | [] => none
  | (k, v) :: rest => if k = c then some v else findBlock c rest

/-- Modelled from the spec: the fetch collaborator loading and decoding
the block named by an identifier; failure when the block is absent. -/
def loadBlock (store : Store) (c : Cid) : Except Err Value :=
  match findBlock c store with
  | some v => .ok v
  | none => .error (.missingBlock c)

/-- First field of the given name in a map node's field list. -/
def findField (s : String) : List (String × Value) → Option Value
  | [] => none
  | (k, v) :: rest => if k = s then some v else findField s rest

/-- Modelled from the spec: `LookupByString` on a decoded node — the
named field of a map node, an error carrying the missing name when the
field is absent, and an error on nodes without named fields. -/
def lookupByString (v : Value) (s : String) : Except Err Value :=
  match v with
  | .vmap fields =>
    match findField s fields with
    | some w => .ok w
    | none => .error (.noSuchField s)
  | _ => .error .notAMapNode

/-- A compiled traversal plan, covering exactly the selector shapes the
resolver's builder calls produce: a match marker (`ssb.Matcher()`),
exploration of one named field (`ssb.ExploreFields` with a single
`Insert`), and a two-member union (`ssb.ExploreUnion`). -/
inductive SelSpec where
  | matcher : SelSpec
  | exploreField (name : String) (sub : SelSpec) : SelSpec
  | union (a b : SelSpec) : SelSpec
deriving DecidableEq, Repr

/-- Embeds `pathSelector`: fold the reducer over the segments from the
last one inward, starting from a bare matcher. -/
def pathSelector (reduce : String → SelSpec → SelSpec) (path : List String) : SelSpec :=
  path.foldr reduce .matcher

/-- Embeds `pathLeafSelector`: explore every segment, match only the node
reached by following all of them. -/
def pathLeafSelector (path : List String) : SelSpec :=
  pathSelector (fun p s => .exploreField p s) path

/-- Embeds `pathAllSelector`: at every step, a union of match-here and
explore-further, so every node en route (the root included) is matched. -/
def pathAllSelector (path : List String) : SelSpec :=
  pathSelector (fun p s => .union .matcher (.exploreField p s)) path

/-- Modelled from the spec: one exploration step of the fetch session's
traversal into the named field of the current node.  A missing field, or a
node without fields, silently ends that branch (`.ok none`).  A child that
is a concrete content-identifier link is loaded transparently, the step
landing on the loaded block's root node, whose originating block becomes
the link target; any other link fails the traversal; an inline child stays
inside the current block. -/
def fieldStep (store : Store) (v : Value) (s : String) (b : Cid) :
    Except Err (Option (Value × Cid)) :=
  match v with
  | .vmap fields =>
    match findField s fields with
    | none => .ok none
    | some (.vlink (.cidLink tc)) =>
      match loadBlock store tc with
      | .ok v2 => .ok (some (v2, tc))
      | .error e => .error e
    | some (.vlink (.otherLink _)) => .error .badLink
    | some w => .ok (some (w, b))
  | _ => .ok none

/-- Modelled from the spec: the fetch session's `matchSelector` walk.
Given the compiled plan, the current node and the identifier of the block
it physically lives in, deliver the matches in path order, each paired
with its originating block identifier; any load failure fails the whole
walk. -/
def walk (store : Store) : SelSpec → Value → Cid → Except Err (List (Value × Cid))
  | .matcher, v, b => .ok [(v, b)]
  | .exploreField s sub, v, b =>
    match fieldStep store v s b with
    | .ok none => .ok []
    | .ok (some (v2, b2)) => walk store sub v2 b2
    | .error e => .error e
  | .union s1 s2, v, b =>
    match walk store s1 v b, walk store s2 v b with
    | .ok m1, .ok m2 => .ok (m1 ++ m2)
    | .error e, _ => .error e
    | .ok _, .error e => .error e

/-- Embeds the per-match block-boundary bookkeeping of `resolveNodes`'
callback: state `(lastLink, depth)`, reset of the depth to `0` with a new
`lastLink` whenever the match's originating block identifier differs from
`lastLink`, increment otherwise. -/
def depthStep (st : Cid × Nat) (b : Cid) : Cid × Nat :=
  if st.1 ≠ b then (b, 0) else (st.1, st.2 + 1)

/-- The `(lastLink, depth)` state after folding `depthStep` from the
initial state `(cid.Undef, 0)` over the originating block identifiers. -/
def depthFold (bs : List Cid) : Cid × Nat :=
  bs.foldl depthStep (Cid.undef, 0)

/-- Embeds `resolveNodes`: fetch the root block, walk the selector from
its root node and collect `(matchedNodes, lastBlockId, depth)`, returning
`(nil, cid.Undef, 0, err)` on any failure, exactly as the source does.
The source's fixup of a nil `LastBlockLink` to the queried identifier is
represented by starting the walk with originating block `c`. -/
def resolveNodes (store : Store) (c : Cid) (sel : SelSpec) :
    List Value × Cid × Nat × Option Err :=
  match loadBlock store c with
  | .error e => ([], .undef, 0, some e)
  | .ok v =>
    match walk store sel v c with
    | .error e => ([], .undef, 0, some e)
    | .ok ms =>
      let st := depthFold (ms.map Prod.snd)
      (ms.map Prod.fst, st.1, st.2, none)

/-- Modelled from the spec: a parsed absolute path, already split into the
root content identifier and the ordered segment list (`path.go` of the
repository provides `SplitAbsPath`; model paths are well formed, so the
split cannot fail). -/
structure Path where
  root : Cid
  segments : List String
deriving DecidableEq, Repr

/-- Modelled from the spec: `SplitAbsPath` on a well-formed path. -/
def splitAbsPath (fp : Path) : Cid × List String :=
  (fp.root, fp.segments)

/-- Embeds `ResolveToLastNode` (the remainder-tolerant version): return
the root for a segmentless path; otherwise walk the all-mode selector over
every segment but the last, look the final segment up on the last matched
node, and either return `(lastCid, p[len(p)-depth-1:])` for a non-link
value, the link target with an empty remainder for a concrete
content-identifier link, or fail. -/
def resolveToLastNode (store : Store) (fp : Path) : Cid × List String × Option Err :=
  let (c, p) := splitAbsPath fp
  match p.getLast? with
  | none => (c, [], none)
  | some lastSegment =>
    match resolveNodes store c (pathAllSelector p.dropLast) with
    | (_, _, _, some e) => (.undef, [], some e)
    | (nodes, lastCid, depth, none) =>
      match nodes.getLast? with
      | none => (.undef, [], some .noNode)
      | some parent =>
        match lookupByString parent lastSegment with
        | .error e => (.undef, [], some e)
        | .ok nd =>
          if nd.kind ≠ .link then
            (lastCid, p.drop (p.length - depth - 1), none)
          else
            match nd with
            | .vlink (.cidLink tc) => (tc, [], none)
            | _ => (.undef, [], some .notCidLink)

/-- Embeds `ResolvePath`: walk the leaf-mode selector over all segments
and return the last matched node; fail when nothing matched. -/
def resolvePath (store : Store) (fp : Path) : Option Value × Option Err :=
  let (c, p) := splitAbsPath fp
  match resolveNodes store c (pathLeafSelector p) with
  | (_, _, _, some e) => (none, some e)
  | (nodes, _, _, none) =>
    match nodes.getLast? with
    | none => (none, some .noNode)
    | some nd => (some nd, none)

/-- Embeds `ResolvePathComponents`: walk the all-mode selector over the
full segment list and return every matched node, forwarding the walk's
outcome unchanged. -/
def resolvePathComponents (store : Store) (fp : Path) : List Value × Option Err :=
  let (c, p) := splitAbsPath fp
  match resolveNodes store c (pathAllSelector p) with
  | (_, _, _, some e) => ([], some e)
  | (nodes, _, _, none) => (nodes, none)

/-- Embeds `ResolveLinks`: walk the all-mode selector over the names
starting from an already-in-hand node (it lives in no fetched block, so
its originating block identifier is the zero identifier), prepending the
starting node to the delivered matches; `nil` on any failure. -/
def resolveLinks (store : Store) (ndd : Value) (names : List String) :
    List Value × Option Err :=
  match walk store (pathAllSelector names) ndd .undef with
  | .error e => ([], some e)
  | .ok ms => (ndd :: ms.map Prod.fst, none)

/-- Follows the spec's words for the all-mode plan: every node visited en
route, the root included, is reported as a match in path order, each with
its originating block identifier; a missing field ends the walk after the
current node; a load failure fails the walk. -/
def allModeMatches (store : Store) : List String → Value → Cid → Except Err (List (Value × Cid))
  | [], v, b => .ok [(v, b)]
  | s :: rest, v, b =>
    match fieldStep store v s b with
    | .ok none => .ok [(v, b)]
    | .ok (some (v2, b2)) =>
      match allModeMatches store rest v2 b2 with
      | .ok ms => .ok ((v, b) :: ms)
      | .error e => .error e
    | .error e => .error e

/-- Follows the spec's words for the leaf-mode plan: only the node reached
by following every segment is reported; a missing field yields zero
matches; a load failure fails the walk. -/
def leafModeMatches (store : Store) : List String → Value → Cid → Except Err (List (Value × Cid))
  | [], v, b => .ok [(v, b)]
  | s :: rest, v, b =>
    match fieldStep store v s b with
    | .ok none => .ok []
    | .ok (some (v2, b2)) => leafModeMatches store rest v2 b2
    | .error e => .error e

/-- How many of the leading identifiers equal `b`. -/
def countWhileEq (b : Cid) : List Cid → Nat
  | [] => 0
  | x :: rest => if x = b then 1 + countWhileEq b rest else 0

/-- Length of the maximal constant prefix of an identifier sequence. -/
def leadRun : List Cid → Nat
  | [] => 0
  | b :: rest => 1 + countWhileEq b rest

/-- Length of the maximal constant suffix of a block-identifier sequence:
the number of trailing matches that share the last match's originating
block. -/
def trailingRun (bs : List Cid) : Nat :=
  leadRun bs.reverse

/-- A store that maps no block to the zero identifier — every stored
block has a real content identifier, as encoded blocks do. -/
abbrev storeNoUndef (store : Store) : Prop :=
  ∀ e ∈ store, e.1 ≠ Cid.undef

/-- Follows the spec's words for the claimed contract of
`ResolveToLastNode` under scrutiny: identical to `resolveToLastNode`
except that the plan compiled over all segments but the last is the
*leaf*-mode selector, as the claim states, rather than the all-mode
selector the source compiles. -/
def resolveToLastNodeLeafVariant (store : Store) (fp : Path) : Cid × List String × Option Err :=
  let (c, p) := splitAbsPath fp
  match p.getLast? with
  | none => (c, [], none)
  | some lastSegment =>
    match resolveNodes store c (pathLeafSelector p.dropLast) with
    | (_, _, _, some e) => (.undef, [], some e)
    | (nodes, lastCid, depth, none) =>
      match nodes.getLast? with
      | none => (.undef, [], some .noNode)
      | some parent =>
        match lookupByString parent lastSegment with
        | .error e => (.undef, [], some e)
        | .ok nd =>
          if nd.kind ≠ .link then
            (lastCid, p.drop (p.length - depth - 1), none)
          else
            match nd with
            | .vlink (.cidLink tc) => (tc, [], none)
            | _ => (.undef, [], some .notCidLink)

/-- The single-block store of the remainder test: one block encoding
the map `\x7b"foo": \x7b"bar": "baz"\x7d\x7d`. -/
def remainderCid : Cid := .mk 1

/-- The decoded root node of the remainder-test block. -/
def remainderRoot : Value := .vmap [("foo", .vmap [("bar", .vstring "baz")])]

/-- The inner map node of the remainder-test block, reached by `foo`. -/
def remainderInner : Value := .vmap [("bar", .vstring "baz")]

/-- The block contents for `remainderCid`. -/
def remainderStore : Store := [(remainderCid, remainderRoot)]

/-- Identifier of block A in the three-block chain example. -/
def cidA : Cid := .mk 10

/-- Identifier of block B in the three-block chain example. -/
def cidB : Cid := .mk 11

/-- Identifier of block C in the three-block chain example. -/
def cidC : Cid := .mk 12

/-- The decoded root node of block A, holding a link named `child` to B. -/
def nodeA : Value := .vmap [("child", .vlink (.cidLink cidB))]

/-- The decoded root node of block B, holding a link named `grandchild`
to C. -/
def nodeB : Value := .vmap [("grandchild", .vlink (.cidLink cidC))]

/-- Three separate blocks `A -(link "child")-> B -(link "grandchild")-> C`. -/
def linkStore : Store :=
  [(cidA, nodeA), (cidB, nodeB), (cidC, .vstring "leaf")]

/-! ## Walk refinement lemmas -/

theorem pathAllSelector_nil : pathAllSelector [] = .matcher := rfl

theorem pathAllSelector_cons (s : String) (rest : List String) :
    pathAllSelector (s :: rest) = .union .matcher (.exploreField s (pathAllSelector rest)) := rfl

theorem pathLeafSelector_nil : pathLeafSelector [] = .matcher := rfl

theorem pathLeafSelector_cons (s : String) (rest : List String) :
    pathLeafSelector (s :: rest) = .exploreField s (pathLeafSelector rest) := rfl

theorem walk_pathAllSelector (store : Store) :
    ∀ (l : List String) (v : Value) (b : Cid),
      walk store (pathAllSelector l) v b = allModeMatches store l v b := by
  intro l
  induction l with
  | nil => intro v b; rfl
  | cons s rest ih =>
    intro v b
    rw [pathAllSelector_cons]
    show (match walk store .matcher v b, walk store (.exploreField s (pathAllSelector rest)) v b with
      | .ok m1, .ok m2 => .ok (m1 ++ m2)
      | .error e, _ => .error e
      | .ok _, .error e => .error e) = allModeMatches store (s :: rest) v b
    unfold walk allModeMatches
    rcases h : fieldStep store v s b with e | o
    · simp
    · rcases o with _ | ⟨v2, b2⟩
      · simp
      · simp only [ih v2 b2]
        rcases allModeMatches store rest v2 b2 with e | ms <;> simp

theorem walk_pathLeafSelector (store : Store) :
    ∀ (l : List String) (v : Value) (b : Cid),
      walk store (pathLeafSelector l) v b = leafModeMatches store l v b := by
  intro l
  induction l with
  | nil => intro v b; rfl
  | cons s rest ih =>
    intro v b
    rw [pathLeafSelector_cons]
    unfold walk leafModeMatches
    rcases h : fieldStep store v s b with e | o
    · simp
    · rcases o with _ | ⟨v2, b2⟩
      · simp
      · simp [ih v2 b2]

theorem allModeMatches_head (store : Store) :
    ∀ (l : List String) (v : Value) (b : Cid) (ms : List (Value × Cid)),
      allModeMatches store l v b = .ok ms → ms.head? = some (v, b) := by
  intro l v b ms h
  rcases l with _ | ⟨s, rest⟩
  · rw [← Except.ok.inj h]
    rfl
  · unfold allModeMatches at h
    split at h
    · rw [← Except.ok.inj h]
      rfl
    · split at h
      · rw [← Except.ok.inj h]
        rfl
      · exact absurd h (by simp)
    · exact absurd h (by simp)

theorem allModeMatches_ne_nil (store : Store) (l : List String) (v : Value) (b : Cid)
    (ms : List (Value × Cid)) (h : allModeMatches store l v b = .ok ms) : ms ≠ [] := by
  intro hnil
  have := allModeMatches_head store l v b ms h
  rw [hnil] at this
  cases this

theorem allModeMatches_length (store : Store) :
    ∀ (l : List String) (v : Value) (b : Cid) (ms : List (Value × Cid)),
      allModeMatches store l v b = .ok ms → ms.length ≤ l.length + 1 := by
  intro l
  induction l with
  | nil =>
    intro v b ms h
    rw [← Except.ok.inj h]
    simp
  | cons s rest ih =>
    intro v b ms h
    unfold allModeMatches at h
    split at h
    · rw [← Except.ok.inj h]
      simp
    · rename_i v2 b2 hf
      split at h
      · rename_i ms2 hr
        rw [← Except.ok.inj h]
        have := ih v2 b2 ms2 hr
        simp only [List.length_cons]
        omega
      · exact absurd h (by simp)
    · exact absurd h (by simp)

theorem allModeMatches_leaf (store : Store) :
    ∀ (l : List String) (v : Value) (b : Cid) (ms : List (Value × Cid)),
      allModeMatches store l v b = .ok ms →
      ∃ ls, leafModeMatches store l v b = .ok ls ∧
        (ls = [] ∨ ∃ m, ls = [m] ∧ ms.getLast? = some m) := by
  intro l
  induction l with
  | nil =>
    intro v b ms h
    rw [← Except.ok.inj h]
    exact ⟨[(v, b)], rfl, Or.inr ⟨(v, b), rfl, rfl⟩⟩
  | cons s rest ih =>
    intro v b ms h
    unfold allModeMatches at h
    unfold leafModeMatches
    split at h
    · exact ⟨[], rfl, Or.inl rfl⟩
    · rename_i v2 b2 hf
      split at h
      · rename_i ms2 hr
        rw [← Except.ok.inj h]
        rcases ih v2 b2 ms2 hr with ⟨ls, hls, hcase⟩
        refine ⟨ls, hls, ?_⟩
        rcases hcase with hnil | ⟨m, hm, hlast⟩
        · exact Or.inl hnil
        · refine Or.inr ⟨m, hm, ?_⟩
          rcases ms2 with _ | ⟨x, xs⟩
          · cases hlast
          · rw [List.getLast?_cons_cons]
            exact hlast
      · exact absurd h (by simp)
    · exact absurd h (by simp)

/-! ## Block-boundary depth lemmas -/

theorem depthFold_concat (bs : List Cid) (b : Cid) :
    depthFold (bs ++ [b]) = depthStep (depthFold bs) b := by
  simp [depthFold, List.foldl_append]

theorem depthStep_fst (st : Cid × Nat) (b : Cid) : (depthStep st b).1 = b := by
  unfold depthStep
  split
  · rfl
  · next hne => simpa using (not_not.mp hne)

theorem depthFold_fst (bs : List Cid) (b : Cid) (h : bs.getLast? = some b) :
    (depthFold bs).1 = b := by
  have hne : bs ≠ [] := by
    intro hnil
    rw [hnil] at h
    cases h
  have hb : bs.dropLast ++ [b] = bs := List.dropLast_append_getLast? b h
  rw [← hb, depthFold_concat]
  exact depthStep_fst _ b

theorem countWhileEq_le (b : Cid) (l : List Cid) : countWhileEq b l ≤ l.length := by
  induction l with
  | nil => simp [countWhileEq]
  | cons x rest ih =>
    unfold countWhileEq
    split
    · simp only [List.length_cons]
      omega
    · simp

theorem leadRun_le (l : List Cid) : leadRun l ≤ l.length := by
  rcases l with _ | ⟨b, rest⟩
  · simp [leadRun]
  · have hc := countWhileEq_le b rest
    simp only [leadRun, List.length_cons]
    omega

theorem trailingRun_le (bs : List Cid) : trailingRun bs ≤ bs.length := by
  have := leadRun_le bs.reverse
  simpa [trailingRun] using this

theorem trailingRun_concat_ne (bs : List Cid) (a b : Cid) (hl : bs.getLast? = some a)
    (hne : a ≠ b) : trailingRun (bs ++ [b]) = 1 := by
  unfold trailingRun
  rw [List.reverse_append]
  simp only [List.reverse_singleton, List.singleton_append, leadRun]
  have hz : countWhileEq b bs.reverse = 0 := by
    rcases hr : bs.reverse with _ | ⟨x, rest⟩
    · simp [countWhileEq]
    · have hx : x = a := by
        have hx2 : bs.getLast? = some x := by
          rw [← List.reverse_reverse bs, hr]
          simp [List.getLast?_reverse]
        rw [hx2] at hl
        exact Option.some.inj hl
      unfold countWhileEq
      rw [if_neg]
      rw [hx]
      exact hne
  omega

theorem trailingRun_concat_eq (bs : List Cid) (b : Cid) (hl : bs.getLast? = some b) :
    trailingRun (bs ++ [b]) = trailingRun bs + 1 := by
  have hne : bs ≠ [] := by
    intro hnil
    rw [hnil] at hl
    cases hl
  unfold trailingRun
  rw [List.reverse_append]
  simp only [List.reverse_singleton, List.singleton_append, leadRun]
  rcases hr : bs.reverse with _ | ⟨x, rest⟩
  · exact absurd (by simpa using congrArg List.reverse hr) hne
  · have hx : x = b := by
      have hx2 : bs.getLast? = some x := by
        rw [← List.reverse_reverse bs, hr]
        simp [List.getLast?_reverse]
      rw [hx2] at hl
      exact Option.some.inj hl
    show 1 + countWhileEq b (x :: rest) = (1 + countWhileEq x rest) + 1
    simp only [countWhileEq, if_pos hx]
    rw [hx]
    omega

theorem depthFold_snd (bs : List Cid) (hu : ∀ x ∈ bs, x ≠ Cid.undef) (hne : bs ≠ []) :
    (depthFold bs).2 + 1 = trailingRun bs := by
  induction bs using List.reverseRecOn with
  | nil => exact absurd rfl hne
  | append_singleton bs b ih =>
    rcases hbs : bs.getLast? with _ | a
    · have hb : bs = [] := by
        rcases bs with _ | ⟨x, xs⟩
        · rfl
        · rw [List.getLast?_eq_getLast _ (by simp)] at hbs
          cases hbs
      subst hb
      have hbu : b ≠ Cid.undef := hu b (by simp)
      simp only [List.nil_append, depthFold, List.foldl_cons, List.foldl_nil, depthStep]
      rw [if_pos (by simpa using (Ne.symm hbu))]
      simp [trailingRun, leadRun, countWhileEq]
    · have hbsne : bs ≠ [] := by
        intro hnil
        rw [hnil] at hbs
        cases hbs
      have ihr := ih (fun x hx => hu x (by simp [hx]))
      have hfst : (depthFold bs).1 = a := depthFold_fst bs a hbs
      rw [depthFold_concat]
      unfold depthStep
      rw [hfst]
      by_cases hab : a = b
      · rw [if_neg (by simpa using hab)]
        rw [trailingRun_concat_eq bs b (by rw [hbs, hab])]
        have := ihr hbsne
        omega
      · rw [if_pos (by simpa using hab)]
        rw [trailingRun_concat_ne bs a b hbs hab]

theorem depthFold_snd_lt (bs : List Cid) (hu : ∀ x ∈ bs, x ≠ Cid.undef) (hne : bs ≠ []) :
    (depthFold bs).2 < bs.length := by
  have h1 := depthFold_snd bs hu hne
  have h2 := trailingRun_le bs
  omega

/-! ## Identifier sanity lemmas -/

theorem findBlock_undef_none (store : Store) (hs : storeNoUndef store) :
    findBlock Cid.undef store = none := by
  induction store with
  | nil => rfl
  | cons e rest ih =>
    unfold findBlock
    rw [if_neg (hs e (by simp))]
    exact ih (fun x hx => hs x (by simp [hx]))

theorem loadBlock_ne_undef (store : Store) (tc : Cid) (v2 : Value) (hs : storeNoUndef store)
    (h : loadBlock store tc = .ok v2) : tc ≠ .undef := by
  intro hu
  subst hu
  unfold loadBlock at h
  rw [findBlock_undef_none store hs] at h
  exact absurd h (by simp)

theorem fieldStep_ne_undef (store : Store) (v : Value) (s : String) (b : Cid)
    (v2 : Value) (b2 : Cid) (hs : storeNoUndef store) (hb : b ≠ .undef)
    (h : fieldStep store v s b = .ok (some (v2, b2))) : b2 ≠ .undef := by
  unfold fieldStep at h
  split at h
  · split at h
    · exact absurd h (by simp)
    · rename_i tc hff
      split at h
      · rename_i w hload
        have := Except.ok.inj h
        have hb2 : b2 = tc := by
          have := congrArg (fun o => Option.map Prod.snd o) this
          simpa using this.symm
        rw [hb2]
        exact loadBlock_ne_undef store tc w hs hload
      · exact absurd h (by simp)
    · exact absurd h (by simp)
    · have := Except.ok.inj h
      have hb2 : b2 = b := by
        have := congrArg (fun o => Option.map Prod.snd o) this
        simpa using this.symm
      rw [hb2]
      exact hb
  · exact absurd h (by simp)

theorem walk_snd_ne_undef (store : Store) (hs : storeNoUndef store) :
    ∀ (sel : SelSpec) (v : Value) (b : Cid), b ≠ .undef →
      ∀ (ms : List (Value × Cid)), walk store sel v b = .ok ms →
        ∀ m ∈ ms, m.2 ≠ .undef := by
  intro sel
  induction sel with
  | matcher =>
    intro v b hb ms h m hm
    rw [← Except.ok.inj h] at hm
    simp at hm
    rw [hm]
    exact hb
  | exploreField s sub ih =>
    intro v b hb ms h m hm
    unfold walk at h
    split at h
    · rw [← Except.ok.inj h] at hm
      simp at hm
    · rename_i v2 b2 hf
      exact ih v2 b2 (fieldStep_ne_undef store v s b v2 b2 hs hb hf) ms h m hm
    · exact absurd h (by simp)
  | union s1 s2 ih1 ih2 =>
    intro v b hb ms h m hm
    unfold walk at h
    split at h
    · rename_i m1 m2 h1 h2
      rw [← Except.ok.inj h] at hm
      rcases List.mem_append.mp hm with hmem | hmem
      · exact ih1 v b hb m1 h1 m hmem
      · exact ih2 v b hb m2 h2 m hmem
    · exact absurd h (by simp)
    · exact absurd h (by simp)

/-! ## `resolveNodes` computation lemmas -/

theorem resolveNodes_ok (store : Store) (c : Cid) (sel : SelSpec) (v : Value)
    (ms : List (Value × Cid)) (hv : loadBlock store c = .ok v)
    (hw : walk store sel v c = .ok ms) :
    resolveNodes store c sel =
      (ms.map Prod.fst, (depthFold (ms.map Prod.snd)).1,
        (depthFold (ms.map Prod.snd)).2, none) := by
  unfold resolveNodes
  simp only [hv, hw]

theorem resolveToLastNode_compute (store : Store) (c : Cid) (p : List String)
    (lastSeg : String) (v : Value) (ms : List (Value × Cid)) (parent : Value × Cid)
    (nd : Value) (hp : p.getLast? = some lastSeg) (hv : loadBlock store c = .ok v)
    (hw : walk store (pathAllSelector p.dropLast) v c = .ok ms)
    (hpar : ms.getLast? = some parent)
    (hlk : lookupByString parent.1 lastSeg = .ok nd) :
    resolveToLastNode store ⟨c, p⟩ =
      (if nd.kind ≠ .link then
        ((depthFold (ms.map Prod.snd)).1,
          p.drop (p.length - (depthFold (ms.map Prod.snd)).2 - 1), none)
       else
        match nd with
        | .vlink (.cidLink tc) => (tc, [], none)
        | _ => (.undef, [], some .notCidLink)) := by
  unfold resolveToLastNode
  simp only [splitAbsPath, hp, resolveNodes_ok store c (pathAllSelector p.dropLast) v ms hv hw,
    List.getLast?_map, hpar, Option.map_some', hlk]

/-! ## Claim theorems -/

/-- C5: for every path consisting of only a root identifier (zero segments
after the root), `ResolveToLastNode` returns `(rootId, [])` immediately;
the result is the same for every store, so no fetch collaborator is ever
consulted. -/
theorem resolveToLastNode_zero_segments (store : Store) (c : Cid) :
    resolveToLastNode store ⟨c, []⟩ = (c, [], none) := rfl

/-- C8: whenever a facade operation reports an error, no partial result
accompanies it: `ResolveToLastNode` returns the zero identifier and an
empty remainder, `ResolvePath` returns no node, and
`ResolvePathComponents` and `ResolveLinks` return an empty node
sequence. -/
theorem facade_errors_atomic :
    (∀ (store : Store) (fp : Path) (e : Err),
      (resolveToLastNode store fp).2.2 = some e →
        (resolveToLastNode store fp).1 = .undef ∧ (resolveToLastNode store fp).2.1 = []) ∧
    (∀ (store : Store) (fp : Path) (e : Err),
      (resolvePath store fp).2 = some e → (resolvePath store fp).1 = none) ∧
    (∀ (store : Store) (fp : Path) (e : Err),
      (resolvePathComponents store fp).2 = some e → (resolvePathComponents store fp).1 = []) ∧
    (∀ (store : Store) (v : Value) (names : List String) (e : Err),
      (resolveLinks store v names).2 = some e → (resolveLinks store v names).1 = []) := by
  refine ⟨?_, ?_, ?_, ?_⟩
  · intro store fp e
    obtain ⟨c, p⟩ := fp
    unfold resolveToLastNode
    simp only [splitAbsPath]
    repeat' split
    all_goals intro h
    all_goals simp_all
  · intro store fp e
    obtain ⟨c, p⟩ := fp
    unfold resolvePath
    simp only [splitAbsPath]
    repeat' split
    all_goals intro h
    all_goals simp_all
  · intro store fp e
    obtain ⟨c, p⟩ := fp
    unfold resolvePathComponents
    simp only [splitAbsPath]
    repeat' split
    all_goals intro h
    all_goals simp_all
  · intro store v names e
    unfold resolveLinks
    repeat' split
    all_goals intro h
    all_goals simp_all

/-- C8 witness: with an empty store every operation fails on the missing
root block, and each failure carries the zero-valued partial results. -/
theorem facade_errors_atomic_witness :
    (resolveToLastNode ([] : Store) ⟨.mk 0, ["a"]⟩).2.2 = some (.missingBlock (.mk 0)) ∧
    (resolveToLastNode ([] : Store) ⟨.mk 0, ["a"]⟩).1 = .undef ∧
    (resolveToLastNode ([] : Store) ⟨.mk 0, ["a"]⟩).2.1 = [] ∧
    (resolvePath ([] : Store) ⟨.mk 0, ["a"]⟩).1 = none ∧
    (resolvePathComponents ([] : Store) ⟨.mk 0, ["a"]⟩).1 = [] ∧
    (resolveLinks ([] : Store) (.vmap [("a", .vlink (.cidLink (.mk 0)))]) ["a"]).1 = [] :=
  ⟨rfl,
   (facade_errors_atomic.1 [] ⟨.mk 0, ["a"]⟩ (.missingBlock (.mk 0)) rfl).1,
   (facade_errors_atomic.1 [] ⟨.mk 0, ["a"]⟩ (.missingBlock (.mk 0)) rfl).2,
   facade_errors_atomic.2.1 [] ⟨.mk 0, ["a"]⟩ (.missingBlock (.mk 0)) rfl,
   facade_errors_atomic.2.2.1 [] ⟨.mk 0, ["a"]⟩ (.missingBlock (.mk 0)) rfl,
   facade_errors_atomic.2.2.2 [] (.vmap [("a", .vlink (.cidLink (.mk 0)))]) ["a"]
     (.missingBlock (.mk 0)) rfl⟩

/-- C10: every successful `ResolveLinks` call both prepends the starting
node and receives it again as the first delivered match of the all-mode
plan, so the start node appears twice; in particular
`ResolveLinks(nd, [])` returns `[nd, nd]`. -/
theorem resolveLinks_duplicate_start :
    (∀ (store : Store) (v : Value) (names : List String) (ns : List Value),
      resolveLinks store v names = (ns, none) →
        ns.head? = some v ∧ ns.tail.head? = some v) ∧
    (∀ (store : Store) (v : Value), resolveLinks store v [] = ([v, v], none)) := by
  constructor
  · intro store v names ns h
    unfold resolveLinks at h
    split at h
    · exact absurd h (by simp)
    · rename_i ms hw
      have hns : ns = v :: ms.map Prod.fst := by
        have := congrArg Prod.fst h
        simpa using this.symm
      have hm := allModeMatches_head store names v .undef ms
        (by rw [← walk_pathAllSelector]; exact hw)
      rcases ms with _ | ⟨m, rest⟩
      · cases hm
      · have hmv : m = (v, .undef) := by simpa using hm
        rw [hns, hmv]
        exact ⟨rfl, rfl⟩
  · intro store v
    rfl

/-- C10 witness: the first conjunct applied to the concrete empty-name
call on a scalar start node. -/
theorem resolveLinks_duplicate_start_witness :
    resolveLinks ([] : Store) (.vstring "x") [] = ([.vstring "x", .vstring "x"], none) ∧
    ([Value.vstring "x", .vstring "x"]).head? = some (Value.vstring "x") ∧
    ([Value.vstring "x", .vstring "x"]).tail.head? = some (Value.vstring "x") :=
  ⟨rfl, resolveLinks_duplicate_start.1 [] (.vstring "x") []
    [.vstring "x", .vstring "x"] rfl⟩

/-- C1: when the final segment, looked up on the parent node reached by
walking all preceding segments, yields a value that is not a link,
`ResolveToLastNode` succeeds and returns the identifier of the last block
fetched during the walk (the block the last matched node originates from)
together with the remainder `p[len(p)-depth-1:]` computed from the
block-boundary depth. -/
theorem resolveToLastNode_inline_remainder (store : Store) (c : Cid) (p : List String)
    (lastSeg : String) (v : Value) (ms : List (Value × Cid)) (parent : Value × Cid)
    (nd : Value) (hp : p.getLast? = some lastSeg) (hv : loadBlock store c = .ok v)
    (hw : walk store (pathAllSelector p.dropLast) v c = .ok ms)
    (hpar : ms.getLast? = some parent)
    (hlk : lookupByString parent.1 lastSeg = .ok nd) (hnd : nd.kind ≠ .link) :
    ∃ depth, resolveNodes store c (pathAllSelector p.dropLast) =
        (ms.map Prod.fst, parent.2, depth, none) ∧
      resolveToLastNode store ⟨c, p⟩ =
        (parent.2, p.drop (p.length - depth - 1), none) := by
  have hfst : (depthFold (ms.map Prod.snd)).1 = parent.2 := by
    apply depthFold_fst
    rw [List.getLast?_map, hpar]
    rfl
  refine ⟨(depthFold (ms.map Prod.snd)).2, ?_, ?_⟩
  · rw [resolveNodes_ok store c (pathAllSelector p.dropLast) v ms hv hw, hfst]
  · rw [resolveToLastNode_compute store c p lastSeg v ms parent nd hp hv hw hpar hlk,
      if_pos hnd, hfst]

/-- C1 witness: resolving `<blockId>/foo/bar` on the single block encoding
`\x7b"foo": \x7b"bar": "baz"\x7d\x7d` returns `(blockId, ["foo", "bar"])`:
the walk matches both nodes inside the one block, the depth is 1, and the
drop index is 0. -/
theorem resolveToLastNode_inline_remainder_witness :
    (["foo", "bar"] : List String).getLast? = some "bar" ∧
    (Value.vstring "baz").kind ≠ Kind.link ∧
    ∃ depth, resolveNodes remainderStore remainderCid
        (pathAllSelector (["foo", "bar"] : List String).dropLast) =
        ([remainderRoot, remainderInner], remainderCid, depth, none) ∧
      resolveToLastNode remainderStore ⟨remainderCid, ["foo", "bar"]⟩ =
        (remainderCid, (["foo", "bar"] : List String).drop (2 - depth - 1), none) :=
  ⟨rfl, by decide,
   resolveToLastNode_inline_remainder remainderStore remainderCid ["foo", "bar"] "bar"
     remainderRoot [(remainderRoot, remainderCid), (remainderInner, remainderCid)]
     (remainderInner, remainderCid) (.vstring "baz") rfl rfl rfl rfl rfl (by decide)⟩

/-- C4: when the final segment, looked up on the parent node, yields a
concrete content-identifier link, `ResolveToLastNode` returns that link's
target identifier paired with an empty remainder. -/
theorem resolveToLastNode_link_target (store : Store) (c : Cid) (p : List String)
    (lastSeg : String) (v : Value) (ms : List (Value × Cid)) (parent : Value × Cid)
    (tc : Cid) (hp : p.getLast? = some lastSeg) (hv : loadBlock store c = .ok v)
    (hw : walk store (pathAllSelector p.dropLast) v c = .ok ms)
    (hpar : ms.getLast? = some parent)
    (hlk : lookupByString parent.1 lastSeg = .ok (.vlink (.cidLink tc))) :
    resolveToLastNode store ⟨c, p⟩ = (tc, [], none) := by
  rw [resolveToLastNode_compute store c p lastSeg v ms parent (.vlink (.cidLink tc))
    hp hv hw hpar hlk, if_neg (by simp [Value.kind])]

/-- C4 witness: with three separate blocks `A -child-> B -grandchild-> C`,
resolving `/root(A)/child/grandchild` yields `(C, [])`. -/
theorem resolveToLastNode_link_target_witness :
    (["child", "grandchild"] : List String).getLast? = some "grandchild" ∧
    lookupByString nodeB "grandchild" = .ok (.vlink (.cidLink cidC)) ∧
    resolveToLastNode linkStore ⟨cidA, ["child", "grandchild"]⟩ = (cidC, [], none) :=
  ⟨rfl, rfl,
   resolveToLastNode_link_target linkStore cidA ["child", "grandchild"] "grandchild"
     nodeA [(nodeA, cidA), (nodeB, cidB)] (nodeB, cidB) cidC rfl rfl rfl rfl rfl⟩

/-- C2 counterexample: `ResolveToLastNode` does not compile a leaf-mode
selector over the segments before the last: on the single-block
`\x7b"foo": \x7b"bar": "baz"\x7d\x7d` store the source (all-mode) returns
remainder `["foo", "bar"]` while the claimed leaf-mode variant would
return remainder `["bar"]`. -/
theorem resolveToLastNode_leaf_claim_counterexample :
    resolveToLastNode remainderStore ⟨remainderCid, ["foo", "bar"]⟩ =
      (remainderCid, ["foo", "bar"], none) ∧
    resolveToLastNodeLeafVariant remainderStore ⟨remainderCid, ["foo", "bar"]⟩ =
      (remainderCid, ["bar"], none) ∧
    resolveToLastNode remainderStore ⟨remainderCid, ["foo", "bar"]⟩ ≠
      resolveToLastNodeLeafVariant remainderStore ⟨remainderCid, ["foo", "bar"]⟩ := by
  refine ⟨rfl, rfl, ?_⟩
  decide

/-- C2 (amended): `ResolveToLastNode` compiles the *all*-mode selector
over all segments except the last — its walk reports every node en route,
the root included — and when zero segments remain after removing the last
the plan matches only the root, so the node the final segment is looked
up on is the root node itself. -/
theorem resolveToLastNode_all_selector :
    (∀ (store : Store) (p : List String) (v : Value) (b : Cid), p ≠ [] →
      walk store (pathAllSelector p.dropLast) v b = allModeMatches store p.dropLast v b) ∧
    (∀ (store : Store) (c : Cid) (s : String) (v : Value) (nd : Value),
      loadBlock store c = .ok v → lookupByString v s = .ok nd → nd.kind ≠ .link →
      resolveToLastNode store ⟨c, [s]⟩ = (c, [s], none)) := by
  constructor
  · intro store p v b _
    exact walk_pathAllSelector store p.dropLast v b
  · intro store c s v nd hv hlk hnd
    have hw : walk store (pathAllSelector ([s] : List String).dropLast) v c = .ok [(v, c)] := rfl
    have h := resolveToLastNode_compute store c [s] s v [(v, c)] (v, c) nd rfl hv hw rfl hlk
    rw [h, if_pos hnd]
    have hz : ([s] : List String).length - (depthFold ([(v, c)].map Prod.snd)).2 - 1 = 0 := by
      simp only [List.length_singleton]
      omega
    rw [hz]
    have hfst : (depthFold ([(v, c)].map Prod.snd)).1 = c := by
      apply depthFold_fst
      rfl
    rw [hfst]
    rfl

/-- C2 amended witness: a single-segment resolution on the remainder-test
block looks the segment up on the root node itself and keeps the full
segment as remainder. -/
theorem resolveToLastNode_all_selector_witness :
    (["foo", "bar"] : List String) ≠ [] ∧
    walk remainderStore (pathAllSelector (["foo", "bar"] : List String).dropLast)
        remainderRoot remainderCid =
      allModeMatches remainderStore (["foo", "bar"] : List String).dropLast
        remainderRoot remainderCid ∧
    lookupByString remainderRoot "foo" = .ok remainderInner ∧
    resolveToLastNode remainderStore ⟨remainderCid, ["foo"]⟩ =
      (remainderCid, ["foo"], none) :=
  ⟨by decide,
   resolveToLastNode_all_selector.1 remainderStore ["foo", "bar"] remainderRoot
     remainderCid (by decide),
   rfl,
   resolveToLastNode_all_selector.2 remainderStore remainderCid "foo" remainderRoot
     remainderInner rfl rfl (by decide)⟩

/-- C6: evaluating the failing input: looking up a missing final segment
name on its parent node makes `ResolveToLastNode` fail with the node's
raw field-lookup error, which carries only the field name — not with the
declared `ErrNoLink` error that would also carry the parent block's
identifier. -/
theorem resolveToLastNode_missing_field_error :
    resolveToLastNode remainderStore ⟨remainderCid, ["qux"]⟩ =
      (.undef, [], some (.noSuchField "qux")) ∧
    (Err.noSuchField "qux") ≠ (Err.noLink "qux" remainderCid) := by
  refine ⟨rfl, ?_⟩
  decide

/-- C3: the block-boundary depth counter of a `resolveNodes` walk equals
one less than the length of the maximal trailing run of matches sharing
the same originating block identifier — it resets to 0 whenever the
identifier changes (the first match included, identifiers being real
content identifiers) and increments when it is unchanged — and it is a
function of the identifiers alone: replacing the matched nodes while
keeping the identifiers leaves the depth unchanged, so identifier
equality, not structural node equality, is the test. -/
theorem resolveNodes_depth_invariant (store : Store) (c : Cid) (sel : SelSpec)
    (v : Value) (ms : List (Value × Cid)) (nodes : List Value) (last : Cid) (depth : Nat)
    (hv : loadBlock store c = .ok v) (hw : walk store sel v c = .ok ms)
    (hms : ms ≠ []) (hc : c ≠ .undef) (hs : storeNoUndef store)
    (hr : resolveNodes store c sel = (nodes, last, depth, none)) :
    depth + 1 = trailingRun (ms.map Prod.snd) ∧
    ∀ ms' : List (Value × Cid), ms'.map Prod.snd = ms.map Prod.snd →
      (depthFold (ms'.map Prod.snd)).2 = depth := by
  have hcompute := resolveNodes_ok store c sel v ms hv hw
  rw [hcompute] at hr
  have hdep : depth = (depthFold (ms.map Prod.snd)).2 := by
    have hproj := congrArg (fun t => t.2.2.1) hr
    simpa using hproj.symm
  have hu : ∀ x ∈ ms.map Prod.snd, x ≠ Cid.undef := by
    intro x hx
    rcases List.mem_map.mp hx with ⟨m, hm, hmx⟩
    rw [← hmx]
    exact walk_snd_ne_undef store hs sel v c hc ms hw m hm
  have hmape : ms.map Prod.snd ≠ [] := by
    intro hnil
    exact hms (List.map_eq_nil_iff.mp hnil)
  constructor
  · rw [hdep]
    exact depthFold_snd (ms.map Prod.snd) hu hmape
  · intro ms' hmse
    rw [hmse, hdep]

/-- C3 witness: the two intra-block matches of the remainder-test walk
give depth 1, one less than the trailing run of length 2; replacing both
matched nodes by unrelated scalars with the same identifiers reproduces
the same depth. -/
theorem resolveNodes_depth_invariant_witness :
    (1 : Nat) + 1 = trailingRun [remainderCid, remainderCid] ∧
    (depthFold ([(Value.vstring "zz", remainderCid),
      (Value.vstring "ww", remainderCid)].map Prod.snd)).2 = 1 := by
  have h := resolveNodes_depth_invariant remainderStore remainderCid
    (pathAllSelector ["foo"]) remainderRoot
    [(remainderRoot, remainderCid), (remainderInner, remainderCid)]
    [remainderRoot, remainderInner] remainderCid 1
    rfl rfl (by simp) (by decide) (by decide) rfl
  exact ⟨h.1, h.2 [(.vstring "zz", remainderCid), (.vstring "ww", remainderCid)] rfl⟩

/-- C9: on a successful walk for a path with at least one segment, the
final depth is strictly below the number of matched nodes, the all-mode
plan over the first `n-1` segments delivers at most `n` matches, and so
the remainder index `len(p)-depth-1` is in bounds: the dropped-prefix
slice exists and holds exactly `depth+1` segments. -/
theorem resolveToLastNode_remainder_in_bounds (store : Store) (c : Cid) (p : List String)
    (v : Value) (ms : List (Value × Cid)) (nodes : List Value) (last : Cid) (depth : Nat)
    (hp : p ≠ []) (hv : loadBlock store c = .ok v)
    (hw : walk store (pathAllSelector p.dropLast) v c = .ok ms)
    (hc : c ≠ .undef) (hs : storeNoUndef store)
    (hr : resolveNodes store c (pathAllSelector p.dropLast) = (nodes, last, depth, none)) :
    depth < nodes.length ∧ nodes.length ≤ p.length ∧ depth + 1 ≤ p.length ∧
    (p.drop (p.length - depth - 1)).length = depth + 1 := by
  have hall : allModeMatches store p.dropLast v c = .ok ms := by
    rw [← walk_pathAllSelector]
    exact hw
  have hms : ms ≠ [] := allModeMatches_ne_nil store p.dropLast v c ms hall
  have hcompute := resolveNodes_ok store c (pathAllSelector p.dropLast) v ms hv hw
  rw [hcompute] at hr
  have hnodes : nodes = ms.map Prod.fst := by
    have hproj := congrArg (fun t => t.1) hr
    simpa using hproj.symm
  have hdep : depth = (depthFold (ms.map Prod.snd)).2 := by
    have hproj := congrArg (fun t => t.2.2.1) hr
    simpa using hproj.symm
  have hu : ∀ x ∈ ms.map Prod.snd, x ≠ Cid.undef := by
    intro x hx
    rcases List.mem_map.mp hx with ⟨m, hm, hmx⟩
    rw [← hmx]
    exact walk_snd_ne_undef store hs (pathAllSelector p.dropLast) v c hc ms hw m hm
  have hmape : ms.map Prod.snd ≠ [] := by
    intro hnil
    exact hms (List.map_eq_nil_iff.mp hnil)
  have hlt : depth < ms.length := by
    have := depthFold_snd_lt (ms.map Prod.snd) hu hmape
    rw [hdep]
    simpa using this
  have hlen : ms.length ≤ p.length := by
    have hbound := allModeMatches_length store p.dropLast v c ms hall
    have hdl : p.dropLast.length = p.length - 1 := by simp
    have hppos : 1 ≤ p.length := by
      rcases p with _ | ⟨x, xs⟩
      · exact absurd rfl hp
      · simp
    omega
  have h1 : depth < nodes.length := by
    rw [hnodes]
    simpa using hlt
  have h2 : nodes.length ≤ p.length := by
    rw [hnodes]
    simpa using hlen
  have h3 : depth + 1 ≤ p.length := by omega
  refine ⟨h1, h2, h3, ?_⟩
  rw [List.length_drop]
  omega

/-- C9 witness: on `<blockId>/foo/bar` over the single remainder-test
block, the depth 1 is below the 2 matched nodes, 2 matches do not exceed
2 segments, and the remainder slice holds exactly 2 segments. -/
theorem resolveToLastNode_remainder_in_bounds_witness :
    (["foo", "bar"] : List String) ≠ [] ∧
    (1 : Nat) < 2 ∧ (2 : Nat) ≤ 2 ∧ (1 : Nat) + 1 ≤ 2 ∧
    ((["foo", "bar"] : List String).drop
      ((["foo", "bar"] : List String).length - 1 - 1)).length = 1 + 1 := by
  have h := resolveToLastNode_remainder_in_bounds remainderStore remainderCid
    ["foo", "bar"] remainderRoot
    [(remainderRoot, remainderCid), (remainderInner, remainderCid)]
    [remainderRoot, remainderInner] remainderCid 1
    (by decide) rfl rfl (by decide) (by decide) rfl
  exact ⟨by decide, h.1, h.2.1, h.2.2.1, h.2.2.2⟩

/-- C7: whenever `ResolvePathComponents` succeeds it returns a non-empty
node sequence, and whenever `ResolvePath` also succeeds on the same path
the last element of that sequence is exactly `ResolvePath`'s node. -/
theorem resolvePathComponents_last (store : Store) (fp : Path) (ns : List Value)
    (h : resolvePathComponents store fp = (ns, none)) :
    ns ≠ [] ∧
    (∀ r, loadBlock store fp.root = .ok r → ns.head? = some r) ∧
    ∀ nd, resolvePath store fp = (some nd, none) → ns.getLast? = some nd := by
  obtain ⟨c, p⟩ := fp
  unfold resolvePathComponents at h
  simp only [splitAbsPath] at h
  split at h
  · exact absurd h (by simp)
  · rename_i nodes last depth hrn
    have hns : ns = nodes := by
      have hproj := congrArg (fun t => t.1) h
      simpa using hproj.symm
    unfold resolveNodes at hrn
    split at hrn
    · exact absurd hrn (by simp)
    · rename_i v hload
      split at hrn
      · rename_i e hwerr
        exact absurd hrn (by simp)
      · rename_i ms hwe
        have hall : allModeMatches store p v c = .ok ms := by
          rw [← walk_pathAllSelector]
          exact hwe
        have hnodes : nodes = ms.map Prod.fst := by
          have hproj := congrArg (fun t => t.1) hrn
          simpa using hproj.symm
        have hms : ms ≠ [] := allModeMatches_ne_nil store p v c ms hall
        refine ⟨?_, ?_, ?_⟩
        · rw [hns, hnodes]
          intro hnil
          exact hms (List.map_eq_nil_iff.mp hnil)
        · intro r hr
          have hrv : r = v := by
            rw [hload] at hr
            exact (Except.ok.inj hr).symm
          have hhead := allModeMatches_head store p v c ms hall
          rw [hns, hnodes, List.head?_map, hhead, hrv]
          rfl
        · intro nd hpath
          unfold resolvePath at hpath
          simp only [splitAbsPath] at hpath
          split at hpath
          · exact absurd hpath (by simp)
          · rename_i nodes2 last2 depth2 hrn2
            split at hpath
            · exact absurd hpath (by simp)
            · rename_i nd2 hlast2
              have hnd2 : nd2 = nd := by
                have hproj := congrArg (fun t => t.1) hpath
                simpa using hproj
              unfold resolveNodes at hrn2
              split at hrn2
              · exact absurd hrn2 (by simp)
              · rename_i v2 hload2
                have hv2 : v2 = v := by
                  rw [hload] at hload2
                  exact (Except.ok.inj hload2).symm
                rw [hv2] at hrn2
                split at hrn2
                · exact absurd hrn2 (by simp)
                · rename_i ls hwl
                  have hleaf : leafModeMatches store p v c = .ok ls := by
                    rw [← walk_pathLeafSelector]
                    exact hwl
                  have hnodes2 : nodes2 = ls.map Prod.fst := by
                    have hproj := congrArg (fun t => t.1) hrn2
                    simpa using hproj.symm
                  rcases allModeMatches_leaf store p v c ms hall with ⟨ls', hls', hcase⟩
                  have hlseq : ls = ls' := by
                    rw [hls'] at hleaf
                    exact Except.ok.inj hleaf.symm
                  subst hlseq
                  rcases hcase with hnil | ⟨m, hm, hlastm⟩
                  · rw [hnil] at hnodes2
                    rw [hnodes2] at hlast2
                    cases hlast2
                  · rw [hm] at hnodes2
                    rw [hnodes2] at hlast2
                    have hnd2m : m.1 = nd2 := by
                      simpa using hlast2
                    rw [hns, hnodes, List.getLast?_map, hlastm, ← hnd2, ← hnd2m]
                    rfl

/-- C7 witness: on the three-block chain, `ResolvePathComponents` returns
the non-empty `[A, B, C]` whose last element is the node `ResolvePath`
returns. -/
theorem resolvePathComponents_last_witness :
    resolvePathComponents linkStore ⟨cidA, ["child", "grandchild"]⟩ =
      ([nodeA, nodeB, .vstring "leaf"], none) ∧
    ([nodeA, nodeB, Value.vstring "leaf"] : List Value) ≠ [] ∧
    ([nodeA, nodeB, Value.vstring "leaf"] : List Value).head? = some nodeA ∧
    ([nodeA, nodeB, Value.vstring "leaf"] : List Value).getLast? =
      some (.vstring "leaf") := by
  have h := resolvePathComponents_last linkStore ⟨cidA, ["child", "grandchild"]⟩
    [nodeA, nodeB, .vstring "leaf"] rfl
  exact ⟨rfl, h.1, h.2.1 nodeA rfl, h.2.2 (.vstring "leaf") rfl⟩

end GoPath
